import Mathlib

/-!
Shallow embedding of the archive_raw catalog engine (src/db.rs, src/images.rs,
src/main.rs).  SQL tables are modelled as Lean lists of rows, the filesystem as
an association list from paths to file contents, and each Rust function as a
pure Lean function on those models.
-/

/-- Rust struct ImageBasic (images.rs): a scanned file, identified by its
root-relative path together with its byte size. -/
structure ImageBasic where
  path : String
  size : Nat
deriving DecidableEq

/-- Rust struct ImageAdv (images.rs): a basic entry enriched with the capture
timestamp (chrono NaiveDateTime, modelled as an abstract Nat). -/
structure ImageAdv where
  basic : ImageBasic
  date : Nat
deriving DecidableEq

/-- Splits a character list at every slash, keeping empty components, matching
how std Path parses a UTF-8 relative path into components before filtering. -/
def splitSlash : List Char → List (List Char)
  | [] => [[]]
  | c :: rest =>
    match splitSlash rest with
    | [] => [[]]
    | s :: ss => if c = '/' then [] :: s :: ss else (c :: s) :: ss

/-- Model of std Path::file_name on a UTF-8 relative path: the last component
after dropping empty and current-dir components, unless it is the parent-dir
component. -/
def fileName (p : String) : Option String :=
  match ((splitSlash p.data).filter (fun c => decide (c ≠ [] ∧ c ≠ ['.']))).getLast? with
  | none => none
  | some c => if c = ['.', '.'] then none else some (String.mk c)

/-- ImageBasic::get_name (images.rs): the display name of the entry, i.e. the
final path component; none models the panic of the expect call. -/
def ImageBasic.get_name (i : ImageBasic) : Option String := fileName i.path

/-- A row of a durable catalog table (on_disk or on_camera).  The columns are
the ones used by the queries in db.rs; saved is meaningful for the camera
table.  add_to_table omits saved from its INSERT, so new rows carry the
column default of 0 (false), modelled from the spec (schema/v1.sql is not
under src). -/
structure Row where
  name : String
  path : String
  size : Nat
  date : Nat
  saved : Bool
deriving DecidableEq

/-- A row of a staging table (new_on_disk or new_on_camera). -/
structure StagedRow where
  name : String
  path : String
  size : Nat
deriving DecidableEq

/-- Rust struct DuplicateImage (db.rs). -/
structure DuplicateImage where
  name : String
  paths : List String
deriving DecidableEq

/-- The INSERT loop of populate_new_table (db.rs): stages every scanned entry,
deriving its display name via get_name (panic modelled as none) and enforcing
the unique index on path (a violation is an SQL error, modelled as none). -/
def stageAll : List ImageBasic → Option (List StagedRow)
  | [] => some []
  | i :: rest =>
    match fileName i.path with
    | none => none
    | some n =>
      match stageAll rest with
      | none => none
      | some tail =>
        if tail.any (fun s => s.path == i.path) then none
        else some (StagedRow.mk n i.path i.size :: tail)

/-- True when two staged rows agree on the (name, size) grouping key. -/
def sameKey (a b : StagedRow) : Bool := a.name == b.name && a.size == b.size

/-- The final DELETE of populate_new_table keeps one rowid per (name, size)
group; which member survives is arbitrary in SQLite, modelled here as the
first staged row of each group. -/
def dedupByKeyAux : List StagedRow → List StagedRow → List StagedRow
  | _, [] => []
  | seen, s :: rest =>
    if seen.any (fun t => sameKey t s) then dedupByKeyAux seen rest
    else s :: dedupByKeyAux (s :: seen) rest

/-- Number of staged rows in the (n, sz) group. -/
def keyCount (staged : List StagedRow) (n : String) (sz : Nat) : Nat :=
  (staged.filter (fun s => s.name == n && s.size == sz)).length

/-- populate_new_table (db.rs): stages the scan, reports every (name, size)
group with more than one member together with all its member paths, and keeps
exactly one representative per group in the staging table. -/
def populate_new_table (images : List ImageBasic) :
    Option (List StagedRow × List DuplicateImage) :=
  (stageAll images).map (fun staged =>
    let dupKeys := ((dedupByKeyAux [] staged).map (fun s => (s.name, s.size))).filter
      (fun k => decide (1 < keyCount staged k.1 k.2))
    let dups := dupKeys.map (fun k =>
      DuplicateImage.mk k.1
        ((staged.filter (fun s => s.name == k.1 && s.size == k.2)).map (fun s => s.path)))
    (dedupByKeyAux [] staged, dups))

/-- True when staged row s and durable row r agree on (path, size), the join
condition of both reconcile queries in update_table_get_new. -/
def stagedMatchesRow (s : StagedRow) (r : Row) : Bool :=
  s.path == r.path && s.size == r.size

/-- update_table_get_new (db.rs): deletes every durable row with no staged
(path, size) match, then returns the count of deleted rows, the surviving
durable table, and the staged entries with no surviving durable match. -/
def update_table_get_new (durable : List Row) (staged : List StagedRow) :
    Nat × List Row × List ImageBasic :=
  let kept := durable.filter (fun r => staged.any (fun s => stagedMatchesRow s r))
  let newE := (staged.filter (fun s => !(kept.any (fun r => stagedMatchesRow s r)))).map
    (fun s => ImageBasic.mk s.path s.size)
  (durable.length - kept.length, kept, newE)

/-- The rows inserted by add_to_table, in order; none models a get_name
panic. -/
def rowsOfImages : List ImageAdv → Option (List Row)
  | [] => some []
  | i :: rest =>
    match i.basic.get_name with
    | none => none
    | some n => (rowsOfImages rest).map (fun rs =>
        Row.mk n i.basic.path i.basic.size i.date false :: rs)

/-- add_to_table (db.rs): appends one durable row per enriched image. -/
def add_to_table (durable : List Row) (images : List ImageAdv) : Option (List Row) :=
  (rowsOfImages images).map (fun rs => durable ++ rs)

/-- The size-mismatch join of get_images_to_archive: all pairs of a camera row
and a disk row that share (name, date) but differ in size. -/
def sizeMismatches (camera disk : List Row) : List (String × Nat × String × Nat) :=
  camera.flatMap (fun c =>
    (disk.filter (fun d => d.name == c.name && d.date == c.date && d.size != c.size)).map
      (fun d => (c.path, c.size, d.path, d.size)))

/-- get_images_to_archive (db.rs): fails when any size mismatch exists,
otherwise returns the unarchived camera rows with no disk (name, date)
match. -/
def get_images_to_archive (camera disk : List Row) : Except String (List ImageAdv) :=
  if (sizeMismatches camera disk).isEmpty then
    Except.ok ((camera.filter (fun c =>
      !(disk.any (fun d => d.name == c.name && d.date == c.date)) && c.saved == false)).map
        (fun c => ImageAdv.mk (ImageBasic.mk c.path c.size) c.date))
  else Except.error "Images with size mismatch detected"

/-- set_images_as_archived (db.rs): sets saved = 1 on every camera row whose
path occurs in the success batch. -/
def set_images_as_archived (camera : List Row) (saved : List ImageAdv) : List Row :=
  camera.map (fun r =>
    if saved.any (fun i => i.basic.path == r.path) then
      { r with saved := true }
    else r)

/-- Spec-side reading of the display name: scan the slash components from the
right for the last real component, and require that it not be the parent-dir
component. -/
def lastComponentSpec (p : String) : Option String :=
  match (splitSlash p.data).reverse.find? (fun c => decide (c ≠ [] ∧ c ≠ ['.'])) with
  | none => none
  | some c => if c = ['.', '.'] then none else some (String.mk c)

/-- The application_id tag db.rs expects (0xBEEF). -/
def APPLICATION_ID : Int := 0xBEEF

/-- The schema version db.rs expects. -/
def USER_VERSION : Int := 2

/-- The persistent state create_conn reads and writes: the application_id and
user_version pragmas (the durable tables themselves are modelled
separately). -/
structure DbState where
  applicationId : Int
  userVersion : Int
deriving DecidableEq

/-- update_schema (db.rs): rejects a stored version outside 0..=USER_VERSION,
otherwise applies the forward migrations (their SQL text is external). -/
def update_schema (v : Int) : Except String Unit :=
  if 0 ≤ v ∧ v ≤ USER_VERSION then Except.ok ()
  else Except.error "Unsupported user version"

/-- create_conn (db.rs): resets the store when asked to or when the tag
mismatches (a reset clears user_version to 0 and rewrites the tag), then
migrates the schema up to USER_VERSION, failing on an unsupported stored
version. -/
def create_conn (st : DbState) (clean : Bool) : Except String DbState :=
  let st1 := if clean || st.applicationId != APPLICATION_ID then
      DbState.mk APPLICATION_ID 0
    else st
  if st1.userVersion ≠ USER_VERSION then
    match update_schema st1.userVersion with
    | Except.error e => Except.error e
    | Except.ok _ => Except.ok (DbState.mk st1.applicationId USER_VERSION)
  else Except.ok st1

/-- One reconciliation pass of find_new_files (main.rs): stage the scan,
dedupe, reconcile against the durable table, enrich every new entry with a
date, and add the enriched entries to the durable table.  Returns the updated
durable table, the removed count and the new entries; none models a staging
failure or a get_name panic. -/
def runPass (durable : List Row) (scan : List ImageBasic) (enrich : ImageBasic → Nat) :
    Option (List Row × Nat × List ImageBasic) :=
  match populate_new_table scan with
  | none => none
  | some (staged, _) =>
    let res := update_table_get_new durable staged
    match add_to_table res.2.1 (res.2.2.map (fun b => ImageAdv.mk b (enrich b))) with
    | none => none
    | some durable2 => some (durable2, res.1, res.2.2)

/-- The filesystem, modelled as an association list from absolute paths to
file contents (a list of bytes). -/
abbrev FS := List (String × List Nat)

/-- Whether a file exists at path p, and its contents if so. -/
def FS.lookup (fs : FS) (p : String) : Option (List Nat) :=
  (fs.find? (fun kv => kv.1 == p)).map (fun kv => kv.2)

/-- Writes contents c at path p, replacing any file already there. -/
def FS.insert (fs : FS) (p : String) (c : List Nat) : FS :=
  (p, c) :: fs.filter (fun kv => kv.1 != p)

/-- Deletes the file at path p. -/
def FS.removeFile (fs : FS) (p : String) : FS :=
  fs.filter (fun kv => kv.1 != p)

/-- archive_image formats the capture date with chrono as YYYY-MM-DD to name
the destination bucket; the abstract date is rendered to decimal digits
here. -/
def formatDate (d : Nat) : String := String.mk (Nat.toDigits 10 d)

/-- Path::join for the path shapes archive_image builds. -/
def pathJoin (a b : String) : String := a ++ "/" ++ b

/-- The ways archive_image can fail: an existing destination file, a failing
copy, or a post-copy length mismatch. -/
inductive ArchiveError where
  | collision
  | copyFailed
  | integrity
deriving DecidableEq

/-- archive_image (images.rs): computes the date-bucketed destination path,
fails on an existing destination file, copies the source bytes, and verifies
the copied length against the recorded size, deleting the destination on a
mismatch.  none models the get_name panic. -/
def archive_image (fs : FS) (image : ImageAdv) (sourceBase targetBase : String) :
    Option (FS × Except ArchiveError Unit) :=
  match image.basic.get_name with
  | none => none
  | some n =>
    let target := pathJoin (pathJoin targetBase (formatDate image.date)) n
    if (FS.lookup fs target).isSome then
      some (fs, Except.error ArchiveError.collision)
    else
      match FS.lookup fs (pathJoin sourceBase image.basic.path) with
      | none => some (fs, Except.error ArchiveError.copyFailed)
      | some content =>
        let fs1 := FS.insert fs target content
        if content.length ≠ image.basic.size then
          some (FS.removeFile fs1 target, Except.error ArchiveError.integrity)
        else some (fs1, Except.ok ())

/-- The archival loop of main (main.rs): attempts every worklist entry in
turn, collecting the successes; a per-entry failure is logged and skipped. -/
def archiveAll (sourceBase targetBase : String) :
    FS → List ImageAdv → Option (FS × List ImageAdv)
  | fs, [] => some (fs, [])
  | fs, i :: rest =>
    match archive_image fs i sourceBase targetBase with
    | none => none
    | some (fs1, res) =>
      match archiveAll sourceBase targetBase fs1 rest with
      | none => none
      | some (fs2, succ) =>
        match res with
        | Except.ok _ => some (fs2, i :: succ)
        | Except.error _ => some (fs2, succ)

/-! ### Claims C1, C2, C3 -/

theorem mem_update_kept_iff (durable : List Row) (staged : List StagedRow) (r : Row) :
    r ∈ (update_table_get_new durable staged).2.1 ↔
      r ∈ durable ∧ ∃ s ∈ staged, s.path = r.path ∧ s.size = r.size := by
  simp [update_table_get_new, List.mem_filter, List.any_eq_true, stagedMatchesRow]

theorem mem_update_new_iff (durable : List Row) (staged : List StagedRow) (b : ImageBasic) :
    b ∈ (update_table_get_new durable staged).2.2 ↔
      ∃ s ∈ staged, s.path = b.path ∧ s.size = b.size ∧
        ¬∃ r' ∈ (update_table_get_new durable staged).2.1,
          r'.path = b.path ∧ r'.size = b.size := by
  constructor
  · intro hb
    simp only [update_table_get_new, List.mem_map, List.mem_filter, Bool.not_eq_true',
      List.any_eq_false] at hb
    obtain ⟨s, ⟨hs, hnone⟩, hbs⟩ := hb
    subst hbs
    refine ⟨s, hs, rfl, rfl, ?_⟩
    rintro ⟨r', hr', hp, hsz⟩
    have h2 := hnone r' (List.mem_filter.mp hr')
    simp [stagedMatchesRow, hp, hsz] at h2
  · rintro ⟨s, hs, hp, hsz, hnone⟩
    simp only [update_table_get_new, List.mem_map, List.mem_filter, Bool.not_eq_true',
      List.any_eq_false]
    refine ⟨s, ⟨hs, ?_⟩, ?_⟩
    · intro r' hr'
      cases hps : s.path == r'.path with
      | false => simp [stagedMatchesRow, hps]
      | true =>
        cases hss : s.size == r'.size with
        | false => simp [stagedMatchesRow, hps, hss]
        | true =>
          exfalso
          rw [beq_iff_eq] at hps hss
          exact hnone ⟨r', List.mem_filter.mpr hr', by rw [← hps]; exact hp,
            by rw [← hss]; exact hsz⟩
    · cases b with
      | mk bp bs => simp_all

/-- C1: update_table_get_new keeps exactly the durable records whose
(identity, size) pair matches some staged entry — equivalently, it deletes
exactly those with no staged match — and returns as new entries exactly the
staged entries whose (identity, size) pair matches no durable record that
remains after the deletion. -/
theorem spec_c1 (durable : List Row) (staged : List StagedRow) (r : Row) (b : ImageBasic) :
    (r ∈ (update_table_get_new durable staged).2.1 ↔
      r ∈ durable ∧ ∃ s ∈ staged, s.path = r.path ∧ s.size = r.size)
    ∧ (b ∈ (update_table_get_new durable staged).2.2 ↔
      ∃ s ∈ staged, s.path = b.path ∧ s.size = b.size ∧
        ¬∃ r' ∈ (update_table_get_new durable staged).2.1,
          r'.path = b.path ∧ r'.size = b.size) :=
  ⟨mem_update_kept_iff durable staged r, mem_update_new_iff durable staged b⟩

/-- C2: a camera record and a disk record sharing (display_name, temporal_key)
but with different sizes make get_images_to_archive fail with a hard error,
producing no worklist. -/
theorem spec_c2 (camera disk : List Row) (c d : Row)
    (hc : c ∈ camera) (hd : d ∈ disk)
    (hname : d.name = c.name) (hdate : d.date = c.date) (hsize : d.size ≠ c.size) :
    ∃ e, get_images_to_archive camera disk = Except.error e := by
  refine ⟨"Images with size mismatch detected", ?_⟩
  have hmem : (c.path, c.size, d.path, d.size) ∈ sizeMismatches camera disk := by
    simp only [sizeMismatches, List.mem_flatMap, List.mem_map, List.mem_filter]
    exact ⟨c, hc, d, ⟨hd, by simp [hname, hdate, hsize]⟩, rfl⟩
  have hne : sizeMismatches camera disk ≠ [] := List.ne_nil_of_mem hmem
  unfold get_images_to_archive
  simp [List.isEmpty_iff, hne]

theorem spec_c2_witness : ∃ e,
    get_images_to_archive [Row.mk "a.jpg" "cam/a.jpg" 100 5 false]
      [Row.mk "a.jpg" "disk/a.jpg" 50 5 false] = Except.error e :=
  spec_c2 _ _ (Row.mk "a.jpg" "cam/a.jpg" 100 5 false)
    (Row.mk "a.jpg" "disk/a.jpg" 50 5 false)
    (by decide) (by decide) (by decide) (by decide) (by decide)

/-- C3: when the conflict check passes, the worklist holds exactly the camera
records with saved = false that have no disk record sharing their
(display_name, temporal_key); membership is characterised with no ordering
requirement. -/
theorem spec_c3 (camera disk : List Row) (l : List ImageAdv) (i : ImageAdv)
    (h : get_images_to_archive camera disk = Except.ok l) :
    i ∈ l ↔ ∃ c ∈ camera, c.saved = false ∧
      (¬∃ d ∈ disk, d.name = c.name ∧ d.date = c.date) ∧
      i = ImageAdv.mk (ImageBasic.mk c.path c.size) c.date := by
  unfold get_images_to_archive at h
  by_cases hmm : (sizeMismatches camera disk).isEmpty
  · rw [if_pos hmm] at h
    injection h with h
    subst h
    simp only [List.mem_map, List.mem_filter, Bool.and_eq_true, Bool.not_eq_true',
      List.any_eq_false, Bool.and_eq_false_iff, beq_iff_eq]
    constructor
    · intro ⟨c, ⟨hc, hnod, hsv⟩, hi⟩
      refine ⟨c, hc, hsv, ?_, hi.symm⟩
      intro ⟨d, hd, hn, hdt⟩
      have := hnod d hd
      simp [hn, hdt] at this
    · intro ⟨c, hc, hsv, hnod, hi⟩
      refine ⟨c, ⟨hc, ?_, hsv⟩, hi.symm⟩
      intro d hd hcon
      exact hnod ⟨d, hd, hcon.1, hcon.2⟩
  · rw [if_neg hmm] at h
    exact Except.noConfusion h

theorem spec_c3_witness :
    (get_images_to_archive [Row.mk "b.jpg" "cam/b.jpg" 50 9 false]
      [Row.mk "a.jpg" "disk/a.jpg" 100 5 false] =
        Except.ok [ImageAdv.mk (ImageBasic.mk "cam/b.jpg" 50) 9])
    ∧ (ImageAdv.mk (ImageBasic.mk "cam/b.jpg" 50) 9 ∈
        [ImageAdv.mk (ImageBasic.mk "cam/b.jpg" 50) 9] ↔
      ∃ c ∈ [Row.mk "b.jpg" "cam/b.jpg" 50 9 false], c.saved = false ∧
        (¬∃ d ∈ [Row.mk "a.jpg" "disk/a.jpg" 100 5 false],
          d.name = c.name ∧ d.date = c.date) ∧
        ImageAdv.mk (ImageBasic.mk "cam/b.jpg" 50) 9 =
          ImageAdv.mk (ImageBasic.mk c.path c.size) c.date) :=
  ⟨by rfl, spec_c3 _ _ _ _ (by rfl)⟩

/-! ### Claim C10 -/

theorem getLast?_filter_eq_find?_reverse {α : Type} (p : α → Bool) (l : List α) :
    (l.filter p).getLast? = l.reverse.find? p := by
  induction l using List.reverseRecOn with
  | nil => rfl
  | append_singleton l a ih =>
    rw [List.filter_append, List.reverse_append]
    cases hpa : p a with
    | true => simp [List.filter_cons, hpa]
    | false => simp [List.filter_cons, hpa, ih]

/-- C10: get_name is partial at the public interface — it returns none
(modelling the panic of the expect call) when the stored path has no final
file-name component, as on the empty string or a path ending in the
parent-dir component — and for every path whose component list ends in a real
final component, it returns exactly that component. -/
theorem spec_c10 :
    (ImageBasic.get_name (ImageBasic.mk "" 0) = none)
    ∧ (ImageBasic.get_name (ImageBasic.mk "a/.." 7) = none)
    ∧ ∀ (b : ImageBasic) (n : String),
        lastComponentSpec b.path = some n → b.get_name = some n := by
  refine ⟨rfl, rfl, ?_⟩
  intro b n h
  unfold ImageBasic.get_name fileName
  unfold lastComponentSpec at h
  rw [getLast?_filter_eq_find?_reverse]
  exact h

theorem spec_c10_witness :
    (ImageBasic.get_name (ImageBasic.mk "" 0) = none)
    ∧ (ImageBasic.get_name (ImageBasic.mk "a/.." 7) = none)
    ∧ ImageBasic.get_name (ImageBasic.mk "photos/img.jpg" 3) = some "img.jpg" :=
  ⟨spec_c10.1, spec_c10.2.1,
    spec_c10.2.2 (ImageBasic.mk "photos/img.jpg" 3) "img.jpg" (by rfl)⟩

/-! ### Claim C9 -/

theorem create_conn_noclean (v : Int) :
    create_conn (DbState.mk APPLICATION_ID v) false =
      (if v ≠ USER_VERSION then
        match update_schema v with
        | Except.error e => Except.error e
        | Except.ok _ => Except.ok (DbState.mk APPLICATION_ID USER_VERSION)
      else Except.ok (DbState.mk APPLICATION_ID v)) := by
  simp [create_conn]

/-- C9: with the store tag matching and no clean flag requested, create_conn
fails exactly when the stored schema version is unsupported — negative or
greater than the expected version — and every stored version between 0 and
the expected version is migrated forward to the expected version. -/
theorem spec_c9 (st : DbState) (happ : st.applicationId = APPLICATION_ID) :
    ((st.userVersion < 0 ∨ USER_VERSION < st.userVersion) ↔
      ∃ e, create_conn st false = Except.error e)
    ∧ (0 ≤ st.userVersion → st.userVersion ≤ USER_VERSION →
        create_conn st false = Except.ok (DbState.mk APPLICATION_ID USER_VERSION)) := by
  obtain ⟨a, v⟩ := st
  simp only at happ
  subst happ
  dsimp only
  rw [create_conn_noclean]
  by_cases hv : v = USER_VERSION
  · subst hv
    rw [if_neg (by simp)]
    constructor
    · constructor
      · intro hbad
        exfalso
        unfold USER_VERSION at hbad
        omega
      · rintro ⟨e, he⟩
        exact Except.noConfusion he
    · intro _ _
      rfl
  · rw [if_pos hv]
    unfold update_schema
    by_cases hrange : 0 ≤ v ∧ v ≤ USER_VERSION
    · rw [if_pos hrange]
      constructor
      · constructor
        · intro hbad
          exfalso
          unfold USER_VERSION at hbad hrange
          omega
        · rintro ⟨e, he⟩
          exact Except.noConfusion he
      · intro _ _
        rfl
    · rw [if_neg hrange]
      constructor
      · constructor
        · intro _
          exact ⟨"Unsupported user version", rfl⟩
        · intro _
          unfold USER_VERSION at hrange ⊢
          omega
      · intro h1 h2
        exact absurd ⟨h1, h2⟩ hrange

theorem spec_c9_witness :
    (((5 : Int) < 0 ∨ USER_VERSION < (5 : Int)) ↔
      ∃ e, create_conn (DbState.mk APPLICATION_ID 5) false = Except.error e)
    ∧ (0 ≤ (5 : Int) → (5 : Int) ≤ USER_VERSION →
        create_conn (DbState.mk APPLICATION_ID 5) false =
          Except.ok (DbState.mk APPLICATION_ID USER_VERSION)) :=
  spec_c9 (DbState.mk APPLICATION_ID 5) rfl

/-! ### Claim C7 -/

/-- C7: an existing file at the exact destination path
target_root / date-bucket / display_name makes archive_image fail with the
collision error before copying, with the filesystem — in particular the
existing file's contents — unchanged. -/
theorem spec_c7 (fs : FS) (image : ImageAdv) (sourceBase targetBase n : String)
    (c : List Nat)
    (hn : image.basic.get_name = some n)
    (hdest : FS.lookup fs (pathJoin (pathJoin targetBase (formatDate image.date)) n) =
      some c) :
    archive_image fs image sourceBase targetBase =
      some (fs, Except.error ArchiveError.collision)
    ∧ FS.lookup fs (pathJoin (pathJoin targetBase (formatDate image.date)) n) = some c := by
  refine ⟨?_, hdest⟩
  simp [archive_image, hn, hdest]

theorem spec_c7_witness :
    archive_image [(pathJoin (pathJoin "tgt" (formatDate 4)) "a.jpg", [9])]
      (ImageAdv.mk (ImageBasic.mk "a.jpg" 3) 4) "src" "tgt" =
      some ([(pathJoin (pathJoin "tgt" (formatDate 4)) "a.jpg", [9])],
        Except.error ArchiveError.collision)
    ∧ FS.lookup [(pathJoin (pathJoin "tgt" (formatDate 4)) "a.jpg", [9])]
        (pathJoin (pathJoin "tgt" (formatDate 4)) "a.jpg") = some [9] :=
  spec_c7 _ (ImageAdv.mk (ImageBasic.mk "a.jpg" 3) 4) "src" "tgt" "a.jpg" [9]
    (by rfl) (by rfl)

/-! ### Claim C6 -/

theorem filter_ne_of_lookup_none (fs : FS) (p : String)
    (h : FS.lookup fs p = none) : fs.filter (fun kv => kv.1 != p) = fs := by
  have hfind : fs.find? (fun kv => kv.1 == p) = none := by
    unfold FS.lookup at h
    cases hf : fs.find? (fun kv => kv.1 == p) with
    | none => rfl
    | some kv =>
      rw [hf] at h
      exact Option.noConfusion h
  have hall := List.find?_eq_none.mp hfind
  rw [List.filter_eq_self]
  intro kv hkv
  have hne := hall kv hkv
  simp only [Bool.not_eq_true] at hne
  simp [bne, hne]

theorem removeFile_insert (fs : FS) (p : String) (c : List Nat)
    (h : FS.lookup fs p = none) : FS.removeFile (FS.insert fs p c) p = fs := by
  unfold FS.removeFile FS.insert
  rw [List.filter_cons, if_neg (by simp)]
  rw [filter_ne_of_lookup_none fs p h, filter_ne_of_lookup_none fs p h]

theorem archiveAll_succ_subset (sourceBase targetBase : String) :
    ∀ (l : List ImageAdv) (fs fs2 : FS) (succ : List ImageAdv),
      archiveAll sourceBase targetBase fs l = some (fs2, succ) → ∀ j ∈ succ, j ∈ l := by
  intro l
  induction l with
  | nil =>
    intro fs fs2 succ h j hj
    unfold archiveAll at h
    injection h with h
    have hsucc := congrArg Prod.snd h
    simp only at hsucc
    rw [← hsucc] at hj
    cases hj
  | cons i rest ih =>
    intro fs fs2 succ h j hj
    unfold archiveAll at h
    cases ha : archive_image fs i sourceBase targetBase with
    | none =>
      rw [ha] at h
      exact Option.noConfusion h
    | some pr =>
      obtain ⟨fs1, res⟩ := pr
      rw [ha] at h
      dsimp only at h
      cases hb : archiveAll sourceBase targetBase fs1 rest with
      | none =>
        rw [hb] at h
        dsimp only at h
        cases res with
        | ok u => exact Option.noConfusion h
        | error e => exact Option.noConfusion h
      | some pr2 =>
        obtain ⟨fs2x, succx⟩ := pr2
        rw [hb] at h
        dsimp only at h
        cases res with
        | ok u =>
          injection h with h
          have hsucc := congrArg Prod.snd h
          simp only at hsucc
          rw [← hsucc] at hj
          rcases List.mem_cons.mp hj with hj | hj
          · rw [hj]
            exact List.mem_cons_self i rest
          · exact List.mem_cons_of_mem i (ih fs1 fs2x succx hb j hj)
        | error e =>
          injection h with h
          have hsucc := congrArg Prod.snd h
          simp only at hsucc
          rw [← hsucc] at hj
          exact List.mem_cons_of_mem i (ih fs1 fs2x succx hb j hj)

theorem mem_set_archived_of_not_success (camera : List Row) (succ : List ImageAdv)
    (r : Row) (hr : r ∈ camera) (hnone : ∀ j ∈ succ, j.basic.path ≠ r.path) :
    r ∈ set_images_as_archived camera succ := by
  unfold set_images_as_archived
  have hany : (succ.any (fun i => i.basic.path == r.path)) = false := by
    rw [List.any_eq_false]
    intro j hj
    simp [hnone j hj]
  refine List.mem_map.mpr ⟨r, hr, ?_⟩
  simp only [hany]
  simp

/-- C6: when the copied content's length differs from the entry's recorded
size, archive_image deletes the destination file — the filesystem it returns
is the unchanged input, in which the destination path is absent — and returns
the integrity error; the failed entry is excluded from the success batch of
the archival loop, so its catalog row keeps saved = false after
set_images_as_archived. -/
theorem spec_c6 (fs : FS) (image : ImageAdv) (sourceBase targetBase n : String)
    (content : List Nat) (camera : List Row) (rest : List ImageAdv) (fs2 : FS)
    (succ : List ImageAdv) (r : Row)
    (hn : image.basic.get_name = some n)
    (hdest : FS.lookup fs (pathJoin (pathJoin targetBase (formatDate image.date)) n) = none)
    (hsrc : FS.lookup fs (pathJoin sourceBase image.basic.path) = some content)
    (hlen : content.length ≠ image.basic.size)
    (hrun : archiveAll sourceBase targetBase fs (image :: rest) = some (fs2, succ))
    (hrest : ∀ j ∈ rest, j.basic.path ≠ image.basic.path)
    (hr : r ∈ camera) (hpath : r.path = image.basic.path) (hsaved : r.saved = false) :
    archive_image fs image sourceBase targetBase =
      some (fs, Except.error ArchiveError.integrity)
    ∧ (∀ j ∈ succ, j.basic.path ≠ image.basic.path)
    ∧ r ∈ set_images_as_archived camera succ := by
  have harch : archive_image fs image sourceBase targetBase =
      some (fs, Except.error ArchiveError.integrity) := by
    unfold archive_image
    rw [hn]
    dsimp only
    rw [hdest, hsrc]
    simp only [Option.isSome_none, Bool.false_eq_true, if_false]
    rw [if_pos hlen]
    rw [removeFile_insert fs _ content hdest]
  have hrun2 : archiveAll sourceBase targetBase fs rest = some (fs2, succ) := by
    unfold archiveAll at hrun
    rw [harch] at hrun
    dsimp only at hrun
    cases hb : archiveAll sourceBase targetBase fs rest with
    | none =>
      rw [hb] at hrun
      exact Option.noConfusion hrun
    | some pr =>
      obtain ⟨fs2x, succx⟩ := pr
      rw [hb] at hrun
      exact hrun
  have hsub := archiveAll_succ_subset sourceBase targetBase rest fs fs2 succ hrun2
  have hsuccne : ∀ j ∈ succ, j.basic.path ≠ image.basic.path :=
    fun j hj => hrest j (hsub j hj)
  refine ⟨harch, hsuccne, ?_⟩
  exact mem_set_archived_of_not_success camera succ r hr
    (fun j hj => by rw [hpath]; exact hsuccne j hj)

theorem spec_c6_witness :
    archive_image [("src/a.jpg", [0, 0, 0])] (ImageAdv.mk (ImageBasic.mk "a.jpg" 5) 1)
      "src" "tgt" =
      some ([("src/a.jpg", [0, 0, 0])], Except.error ArchiveError.integrity)
    ∧ (∀ j ∈ ([] : List ImageAdv),
        j.basic.path ≠ (ImageAdv.mk (ImageBasic.mk "a.jpg" 5) 1).basic.path)
    ∧ Row.mk "a.jpg" "a.jpg" 5 1 false ∈
        set_images_as_archived [Row.mk "a.jpg" "a.jpg" 5 1 false] [] :=
  spec_c6 [("src/a.jpg", [0, 0, 0])] (ImageAdv.mk (ImageBasic.mk "a.jpg" 5) 1)
    "src" "tgt" "a.jpg" [0, 0, 0] [Row.mk "a.jpg" "a.jpg" 5 1 false] [] _ []
    (Row.mk "a.jpg" "a.jpg" 5 1 false)
    (by rfl) (by rfl) (by rfl) (by decide) (by rfl) (by simp) (by decide)
    (by rfl) (by rfl)

/-! ### Claim C5 -/

theorem sameKey_iff (a b : StagedRow) :
    sameKey a b = true ↔ a.name = b.name ∧ a.size = b.size := by
  simp [sameKey]

theorem dedup_not_sameKey_seen :
    ∀ (l seen : List StagedRow) (t : StagedRow), t ∈ seen →
      ∀ s ∈ dedupByKeyAux seen l, sameKey t s = false := by
  intro l
  induction l with
  | nil =>
    intro seen t ht s hs
    simp [dedupByKeyAux] at hs
  | cons a l ih =>
    intro seen t ht s hs
    unfold dedupByKeyAux at hs
    by_cases hseen : (seen.any (fun u => sameKey u a)) = true
    · rw [if_pos hseen] at hs
      exact ih seen t ht s hs
    · rw [if_neg hseen] at hs
      rcases List.mem_cons.mp hs with hsa | hs'
      · subst hsa
        have hall := List.any_eq_false.mp (Bool.eq_false_iff.mpr hseen)
        exact Bool.eq_false_iff.mpr (hall t ht)
      · exact ih (a :: seen) t (List.mem_cons_of_mem a ht) s hs'

theorem dedup_pairwise :
    ∀ (l seen : List StagedRow),
      (dedupByKeyAux seen l).Pairwise (fun a b => sameKey a b = false) := by
  intro l
  induction l with
  | nil => intro seen; simp [dedupByKeyAux]
  | cons a l ih =>
    intro seen
    unfold dedupByKeyAux
    by_cases hseen : (seen.any (fun u => sameKey u a)) = true
    · rw [if_pos hseen]
      exact ih seen
    · rw [if_neg hseen]
      refine List.Pairwise.cons ?_ (ih (a :: seen))
      intro s hs
      exact dedup_not_sameKey_seen l (a :: seen) a (List.mem_cons_self a seen) s hs

theorem dedup_exists_key :
    ∀ (l seen : List StagedRow) (n : String) (sz : Nat),
      (∃ s ∈ l, s.name = n ∧ s.size = sz) →
      (∀ t ∈ seen, ¬(t.name = n ∧ t.size = sz)) →
      ∃ s ∈ dedupByKeyAux seen l, s.name = n ∧ s.size = sz := by
  intro l
  induction l with
  | nil =>
    intro seen n sz hex _
    obtain ⟨s, hs, _⟩ := hex
    cases hs
  | cons a l ih =>
    intro seen n sz hex hseen
    unfold dedupByKeyAux
    by_cases ha : a.name = n ∧ a.size = sz
    · by_cases hany : (seen.any (fun u => sameKey u a)) = true
      · exfalso
        obtain ⟨t, ht, hta⟩ := List.any_eq_true.mp hany
        have hk := (sameKey_iff t a).mp hta
        exact hseen t ht ⟨hk.1.trans ha.1, hk.2.trans ha.2⟩
      · rw [if_neg hany]
        exact ⟨a, List.mem_cons_self a _, ha⟩
    · have hex' : ∃ s ∈ l, s.name = n ∧ s.size = sz := by
        obtain ⟨s, hs, hk⟩ := hex
        rcases List.mem_cons.mp hs with rfl | hs'
        · exact absurd hk ha
        · exact ⟨s, hs', hk⟩
      by_cases hany : (seen.any (fun u => sameKey u a)) = true
      · rw [if_pos hany]
        exact ih seen n sz hex' hseen
      · rw [if_neg hany]
        have hres := ih (a :: seen) n sz hex' (by
          intro t ht
          rcases List.mem_cons.mp ht with rfl | ht'
          · exact ha
          · exact hseen t ht')
        obtain ⟨s, hs, hk⟩ := hres
        exact ⟨s, List.mem_cons_of_mem a hs, hk⟩

theorem dedup_sublist :
    ∀ (l seen : List StagedRow), (dedupByKeyAux seen l).Sublist l := by
  intro l
  induction l with
  | nil => intro seen; simp [dedupByKeyAux]
  | cons a l ih =>
    intro seen
    unfold dedupByKeyAux
    by_cases hseen : (seen.any (fun u => sameKey u a)) = true
    · rw [if_pos hseen]
      exact (ih seen).cons a
    · rw [if_neg hseen]
      exact (ih (a :: seen)).cons₂ a

theorem length_filter_key_eq_one (l : List StagedRow) (n : String) (sz : Nat)
    (hpw : l.Pairwise (fun a b => sameKey a b = false))
    (hex : ∃ s ∈ l, s.name = n ∧ s.size = sz) :
    (l.filter (fun s => s.name == n && s.size == sz)).length = 1 := by
  induction l with
  | nil =>
    obtain ⟨s, hs, _⟩ := hex
    cases hs
  | cons a l ih =>
    rw [List.filter_cons]
    rcases List.pairwise_cons.mp hpw with ⟨ha, hpl⟩
    by_cases hk : a.name = n ∧ a.size = sz
    · rw [if_pos (by simp [hk.1, hk.2])]
      have hfl : l.filter (fun s => s.name == n && s.size == sz) = [] := by
        rw [List.filter_eq_nil_iff]
        intro s hs
        simp only [Bool.and_eq_true, beq_iff_eq, not_and]
        intro h1 h2
        have hsk := Bool.eq_false_iff.mp (ha s hs)
        exact hsk (by
          have hn1 : a.name = s.name := hk.1.trans h1.symm
          have hn2 : a.size = s.size := hk.2.trans h2.symm
          simp [sameKey, hn1, hn2])
      rw [hfl]
      rfl
    · rw [if_neg (by
        simp only [Bool.and_eq_true, beq_iff_eq]
        exact fun hc => hk hc)]
      apply ih hpl
      obtain ⟨s, hs, hks⟩ := hex
      rcases List.mem_cons.mp hs with rfl | hs'
      · exact absurd hks hk
      · exact ⟨s, hs', hks⟩

/-- C5: populate_new_table reports exactly the (display_name, size) groups of
the staged entries having more than one member — each report carrying the
display name and all member paths — without failing the run, and the staging
table it keeps retains exactly one representative entry per
(display_name, size) group. -/
theorem spec_c5 (images : List ImageBasic) (staged retained : List StagedRow)
    (dups : List DuplicateImage)
    (hstage : stageAll images = some staged)
    (hpop : populate_new_table images = some (retained, dups)) :
    (∀ n sz, 1 < keyCount staged n sz →
      DuplicateImage.mk n
        ((staged.filter (fun s => s.name == n && s.size == sz)).map (fun s => s.path))
        ∈ dups)
    ∧ (∀ d ∈ dups, ∃ n sz, d.name = n ∧ 1 < keyCount staged n sz ∧
        d.paths = (staged.filter (fun s => s.name == n && s.size == sz)).map
          (fun s => s.path))
    ∧ (∀ s ∈ staged,
        (retained.filter (fun t => t.name == s.name && t.size == s.size)).length = 1)
    ∧ (∀ t ∈ retained, t ∈ staged) := by
  unfold populate_new_table at hpop
  rw [hstage] at hpop
  dsimp only [Option.map_some] at hpop
  injection hpop with hpop
  injection hpop with hret hdups
  subst hret
  subst hdups
  refine ⟨?_, ?_, ?_, ?_⟩
  · intro n sz hcount
    have hexst : ∃ s ∈ staged, s.name = n ∧ s.size = sz := by
      have hlen : 0 < (staged.filter (fun s => s.name == n && s.size == sz)).length := by
        unfold keyCount at hcount
        omega
      obtain ⟨s, hs⟩ := List.exists_mem_of_length_pos hlen
      have := List.mem_filter.mp hs
      refine ⟨s, this.1, ?_⟩
      have hb := this.2
      simp only [Bool.and_eq_true, beq_iff_eq] at hb
      exact hb
    obtain ⟨s, hs, hk⟩ := dedup_exists_key staged [] n sz hexst (by intro t ht; cases ht)
    refine List.mem_map.mpr ⟨(n, sz), ?_, rfl⟩
    refine List.mem_filter.mpr ⟨?_, ?_⟩
    · exact List.mem_map.mpr ⟨s, hs, by rw [hk.1, hk.2]⟩
    · exact decide_eq_true hcount
  · intro d hd
    obtain ⟨k, hk, hdk⟩ := List.mem_map.mp hd
    have hkf := List.mem_filter.mp hk
    refine ⟨k.1, k.2, ?_, of_decide_eq_true hkf.2, ?_⟩
    · rw [← hdk]
    · rw [← hdk]
  · intro s hs
    exact length_filter_key_eq_one (dedupByKeyAux [] staged) s.name s.size
      (dedup_pairwise staged [])
      (dedup_exists_key staged [] s.name s.size ⟨s, hs, rfl, rfl⟩
        (by intro t ht; cases ht))
  · intro t ht
    exact (dedup_sublist staged []).subset ht

theorem spec_c5_witness :
    (∀ n sz, 1 < keyCount [StagedRow.mk "a.jpg" "x/a.jpg" 5,
        StagedRow.mk "a.jpg" "y/a.jpg" 5] n sz →
      DuplicateImage.mk n
        (([StagedRow.mk "a.jpg" "x/a.jpg" 5, StagedRow.mk "a.jpg" "y/a.jpg" 5].filter
          (fun s => s.name == n && s.size == sz)).map (fun s => s.path))
        ∈ [DuplicateImage.mk "a.jpg" ["x/a.jpg", "y/a.jpg"]])
    ∧ (∀ d ∈ [DuplicateImage.mk "a.jpg" ["x/a.jpg", "y/a.jpg"]], ∃ n sz, d.name = n ∧
        1 < keyCount [StagedRow.mk "a.jpg" "x/a.jpg" 5,
          StagedRow.mk "a.jpg" "y/a.jpg" 5] n sz ∧
        d.paths = ([StagedRow.mk "a.jpg" "x/a.jpg" 5,
          StagedRow.mk "a.jpg" "y/a.jpg" 5].filter
          (fun s => s.name == n && s.size == sz)).map (fun s => s.path))
    ∧ (∀ s ∈ [StagedRow.mk "a.jpg" "x/a.jpg" 5, StagedRow.mk "a.jpg" "y/a.jpg" 5],
        ([StagedRow.mk "a.jpg" "x/a.jpg" 5].filter
          (fun t => t.name == s.name && t.size == s.size)).length = 1)
    ∧ (∀ t ∈ [StagedRow.mk "a.jpg" "x/a.jpg" 5],
        t ∈ [StagedRow.mk "a.jpg" "x/a.jpg" 5, StagedRow.mk "a.jpg" "y/a.jpg" 5]) :=
  spec_c5 [ImageBasic.mk "x/a.jpg" 5, ImageBasic.mk "y/a.jpg" 5]
    [StagedRow.mk "a.jpg" "x/a.jpg" 5, StagedRow.mk "a.jpg" "y/a.jpg" 5]
    [StagedRow.mk "a.jpg" "x/a.jpg" 5]
    [DuplicateImage.mk "a.jpg" ["x/a.jpg", "y/a.jpg"]]
    (by rfl) (by rfl)

/-! ### Claims C4 and C8 -/

theorem stageAll_props :
    ∀ (images : List ImageBasic) (staged : List StagedRow),
      stageAll images = some staged →
      (∀ s ∈ staged, fileName s.path = some s.name) ∧
        (staged.map (fun s => s.path)).Nodup := by
  intro images
  induction images with
  | nil =>
    intro staged h
    injection h with h
    rw [← h]
    constructor
    · intro s hs
      cases hs
    · simp
  | cons i rest ih =>
    intro staged h
    unfold stageAll at h
    cases hf : fileName i.path with
    | none =>
      rw [hf] at h
      exact Option.noConfusion h
    | some n =>
      rw [hf] at h
      dsimp only at h
      cases ht : stageAll rest with
      | none =>
        rw [ht] at h
        exact Option.noConfusion h
      | some tail =>
        rw [ht] at h
        dsimp only at h
        by_cases hdup : (tail.any (fun s => s.path == i.path)) = true
        · rw [if_pos hdup] at h
          exact Option.noConfusion h
        · rw [if_neg hdup] at h
          injection h with h
          rw [← h]
          obtain ⟨ih1, ih2⟩ := ih tail ht
          constructor
          · intro s hs
            rcases List.mem_cons.mp hs with rfl | hs'
            · exact hf
            · exact ih1 s hs'
          · rw [List.map_cons, List.nodup_cons]
            refine ⟨?_, ih2⟩
            intro hmem
            obtain ⟨s, hs, hsp⟩ := List.mem_map.mp hmem
            exact hdup (List.any_eq_true.mpr ⟨s, hs, by simp [hsp]⟩)

theorem populate_staged_props (images : List ImageBasic) (staged : List StagedRow)
    (dups : List DuplicateImage)
    (h : populate_new_table images = some (staged, dups)) :
    (∀ s ∈ staged, fileName s.path = some s.name) ∧
      (staged.map (fun s => s.path)).Nodup := by
  unfold populate_new_table at h
  cases hst : stageAll images with
  | none =>
    rw [hst] at h
    exact Option.noConfusion h
  | some st0 =>
    rw [hst] at h
    dsimp only [Option.map_some] at h
    injection h with h
    have hfst := congrArg Prod.fst h
    dsimp only at hfst
    obtain ⟨hnames, hnodup⟩ := stageAll_props images st0 hst
    rw [← hfst]
    constructor
    · intro s hs
      exact hnames s ((dedup_sublist st0 []).subset hs)
    · exact hnodup.sublist ((dedup_sublist st0 []).map _)

theorem rowsOfImages_mem (images : List ImageAdv) (rows : List Row)
    (h : rowsOfImages images = some rows) :
    ∀ r ∈ rows, ∃ i ∈ images, r.path = i.basic.path ∧ r.size = i.basic.size ∧
      r.saved = false := by
  induction images generalizing rows with
  | nil =>
    intro r hr
    unfold rowsOfImages at h
    injection h with h
    rw [← h] at hr
    cases hr
  | cons i rest ih =>
    intro r hr
    unfold rowsOfImages at h
    cases hg : i.basic.get_name with
    | none =>
      rw [hg] at h
      exact Option.noConfusion h
    | some n =>
      rw [hg] at h
      dsimp only at h
      cases hrest : rowsOfImages rest with
      | none =>
        rw [hrest] at h
        exact Option.noConfusion h
      | some rs =>
        rw [hrest] at h
        dsimp only [Option.map_some'] at h
        injection h with h
        rw [← h] at hr
        rcases List.mem_cons.mp hr with rfl | hr'
        · exact ⟨i, List.mem_cons_self i rest, rfl, rfl, rfl⟩
        · obtain ⟨j, hj, hjr⟩ := ih rs hrest r hr'
          exact ⟨j, List.mem_cons_of_mem i hj, hjr⟩

theorem rowsOfImages_mem_fwd (images : List ImageAdv) (rows : List Row)
    (h : rowsOfImages images = some rows) :
    ∀ i ∈ images, ∃ r ∈ rows, r.path = i.basic.path ∧ r.size = i.basic.size := by
  induction images generalizing rows with
  | nil =>
    intro i hi
    cases hi
  | cons j rest ih =>
    intro i hi
    unfold rowsOfImages at h
    cases hg : j.basic.get_name with
    | none =>
      rw [hg] at h
      exact Option.noConfusion h
    | some n =>
      rw [hg] at h
      dsimp only at h
      cases hrest : rowsOfImages rest with
      | none =>
        rw [hrest] at h
        exact Option.noConfusion h
      | some rs =>
        rw [hrest] at h
        dsimp only [Option.map_some'] at h
        injection h with h
        rcases List.mem_cons.mp hi with rfl | hi'
        · refine ⟨Row.mk n i.basic.path i.basic.size i.date false, ?_, rfl, rfl⟩
          rw [← h]
          exact List.mem_cons_self _ rs
        · obtain ⟨r, hr, hrp⟩ := ih rs hrest i hi'
          refine ⟨r, ?_, hrp⟩
          rw [← h]
          exact List.mem_cons_of_mem _ hr

theorem rowsOfImages_paths (images : List ImageAdv) (rows : List Row)
    (h : rowsOfImages images = some rows) :
    rows.map (fun r => r.path) = images.map (fun i => i.basic.path) := by
  induction images generalizing rows with
  | nil =>
    unfold rowsOfImages at h
    injection h with h
    rw [← h]
    rfl
  | cons i rest ih =>
    unfold rowsOfImages at h
    cases hg : i.basic.get_name with
    | none =>
      rw [hg] at h
      exact Option.noConfusion h
    | some n =>
      rw [hg] at h
      dsimp only at h
      cases hrest : rowsOfImages rest with
      | none =>
        rw [hrest] at h
        exact Option.noConfusion h
      | some rs =>
        rw [hrest] at h
        dsimp only [Option.map_some'] at h
        injection h with h
        rw [← h, List.map_cons, List.map_cons, ih rs hrest]

theorem staged_matches_updated (durable : List Row) (staged : List StagedRow)
    (s : StagedRow) (hs : s ∈ staged) :
    (∃ r ∈ (update_table_get_new durable staged).2.1, s.path = r.path ∧ s.size = r.size)
    ∨ ImageBasic.mk s.path s.size ∈ (update_table_get_new durable staged).2.2 := by
  by_cases hk : (((update_table_get_new durable staged).2.1).any
      (fun r => stagedMatchesRow s r)) = true
  · left
    obtain ⟨r, hr, hm⟩ := List.any_eq_true.mp hk
    have hm' : s.path = r.path ∧ s.size = r.size := by
      simpa [stagedMatchesRow] using hm
    exact ⟨r, hr, hm'⟩
  · right
    refine (mem_update_new_iff durable staged (ImageBasic.mk s.path s.size)).mpr
      ⟨s, hs, rfl, rfl, ?_⟩
    rintro ⟨r', hr', hp, hsz⟩
    exact hk (List.any_eq_true.mpr ⟨r', hr', by simp [stagedMatchesRow, hp, hsz]⟩)

theorem runPass_inv (durable : List Row) (scan : List ImageBasic)
    (enrich : ImageBasic → Nat) (d1 : List Row) (removed1 : Nat)
    (new1 : List ImageBasic)
    (h1 : runPass durable scan enrich = some (d1, removed1, new1)) :
    ∃ staged dups0 rows,
      populate_new_table scan = some (staged, dups0) ∧
      rowsOfImages ((update_table_get_new durable staged).2.2.map
        (fun b => ImageAdv.mk b (enrich b))) = some rows ∧
      (update_table_get_new durable staged).2.1 ++ rows = d1 ∧
      removed1 = (update_table_get_new durable staged).1 ∧
      new1 = (update_table_get_new durable staged).2.2 := by
  unfold runPass at h1
  cases hpop : populate_new_table scan with
  | none =>
    rw [hpop] at h1
    exact Option.noConfusion h1
  | some pr =>
    obtain ⟨staged, dups0⟩ := pr
    rw [hpop] at h1
    dsimp only at h1
    cases hadd : add_to_table (update_table_get_new durable staged).2.1
        ((update_table_get_new durable staged).2.2.map
          (fun b => ImageAdv.mk b (enrich b))) with
    | none =>
      rw [hadd] at h1
      exact Option.noConfusion h1
    | some d2 =>
      rw [hadd] at h1
      dsimp only at h1
      injection h1 with h1
      unfold add_to_table at hadd
      cases hrows : rowsOfImages ((update_table_get_new durable staged).2.2.map
          (fun b => ImageAdv.mk b (enrich b))) with
      | none =>
        rw [hrows] at hadd
        exact Option.noConfusion hadd
      | some rows =>
        rw [hrows] at hadd
        dsimp only [Option.map_some'] at hadd
        injection hadd with hadd
        refine ⟨staged, dups0, rows, rfl, hrows, ?_, ?_, ?_⟩
        · exact hadd.trans (congrArg (fun p => p.1) h1)
        · exact (congrArg (fun p => p.2.1) h1).symm
        · exact (congrArg (fun p => p.2.2) h1).symm

/-- C4: reconciliation is idempotent — after one full pass (stage, dedupe,
reconcile, enrich and add all returned new entries), running the same pass
again over the same unchanged scan removes nothing, returns no new entries,
and leaves the durable table unchanged. -/
theorem spec_c4 (durable : List Row) (scan : List ImageBasic)
    (enrich : ImageBasic → Nat) (d1 : List Row) (removed1 : Nat)
    (new1 : List ImageBasic)
    (h1 : runPass durable scan enrich = some (d1, removed1, new1)) :
    runPass d1 scan enrich = some (d1, 0, []) := by
  obtain ⟨staged, dups0, rows, hpop, hrows, hd1, -, -⟩ :=
    runPass_inv durable scan enrich d1 removed1 new1 h1
  have hmatch : ∀ r ∈ d1, (staged.any (fun s => stagedMatchesRow s r)) = true := by
    intro r hr
    rw [← hd1] at hr
    rcases List.mem_append.mp hr with hrk | hrr
    · exact (List.mem_filter.mp hrk).2
    · obtain ⟨i, hi, hip, his, -⟩ := rowsOfImages_mem _ rows hrows r hrr
      obtain ⟨b, hb, hbi⟩ := List.mem_map.mp hi
      obtain ⟨s, hs, hsp, hss, -⟩ := (mem_update_new_iff durable staged b).mp hb
      refine List.any_eq_true.mpr ⟨s, hs, ?_⟩
      have hbp : i.basic.path = b.path := by rw [← hbi]
      have hbs : i.basic.size = b.size := by rw [← hbi]
      simp [stagedMatchesRow, hsp, hip, hbp, hss, his, hbs]
  have hall : ∀ s ∈ staged, ∃ r ∈ d1, s.path = r.path ∧ s.size = r.size := by
    intro s hs
    rcases staged_matches_updated durable staged s hs with ⟨r, hr, hrp⟩ | hb
    · refine ⟨r, ?_, hrp⟩
      rw [← hd1]
      exact List.mem_append_left _ hr
    · obtain ⟨row, hrow, hrp, hrs⟩ := rowsOfImages_mem_fwd _ rows hrows
        (ImageAdv.mk (ImageBasic.mk s.path s.size)
          (enrich (ImageBasic.mk s.path s.size)))
        (List.mem_map.mpr ⟨ImageBasic.mk s.path s.size, hb, rfl⟩)
      refine ⟨row, ?_, hrp.symm, hrs.symm⟩
      rw [← hd1]
      exact List.mem_append_right _ hrow
  have hkept2 : (update_table_get_new d1 staged).2.1 = d1 :=
    List.filter_eq_self.mpr hmatch
  have hnew2 : (update_table_get_new d1 staged).2.2 = [] := by
    rw [List.eq_nil_iff_forall_not_mem]
    intro b hbmem
    obtain ⟨s, hs, hsp, hss, hnone⟩ := (mem_update_new_iff d1 staged b).mp hbmem
    obtain ⟨r, hr, hrp, hrs⟩ := hall s hs
    refine hnone ⟨r, ?_, ?_, ?_⟩
    · rw [hkept2]
      exact hr
    · rw [← hrp, hsp]
    · rw [← hrs, hss]
  have hrem2 : (update_table_get_new d1 staged).1 = 0 := by
    dsimp only [update_table_get_new]
    rw [List.filter_eq_self.mpr hmatch]
    exact Nat.sub_self _
  unfold runPass
  rw [hpop]
  dsimp only
  rw [hkept2, hnew2, hrem2]
  simp [add_to_table, rowsOfImages]

theorem spec_c4_witness :
    runPass [Row.mk "a.jpg" "a.jpg" 3 7 false] [ImageBasic.mk "a.jpg" 3]
      (fun _ => 7) = some ([Row.mk "a.jpg" "a.jpg" 3 7 false], 0, []) :=
  spec_c4 [] [ImageBasic.mk "a.jpg" 3] (fun _ => 7)
    [Row.mk "a.jpg" "a.jpg" 3 7 false] 0 [ImageBasic.mk "a.jpg" 3] (by rfl)

theorem update_new_paths (durable : List Row) (staged : List StagedRow) :
    ((update_table_get_new durable staged).2.2.map (fun b => b.path)).Sublist
      (staged.map (fun s => s.path)) := by
  dsimp only [update_table_get_new]
  rw [List.map_map]
  exact (List.filter_sublist _).map _

theorem eq_of_nodup_path_map :
    ∀ (l : List StagedRow), (l.map (fun s => s.path)).Nodup →
      ∀ t ∈ l, ∀ s ∈ l, t.path = s.path → t = s := by
  intro l
  induction l with
  | nil =>
    intro _ t ht
    cases ht
  | cons a l ih =>
    intro h t ht s hs hp
    rw [List.map_cons, List.nodup_cons] at h
    rcases List.mem_cons.mp ht with rfl | ht'
    · rcases List.mem_cons.mp hs with rfl | hs'
      · rfl
      · exact absurd (List.mem_map.mpr ⟨s, hs', hp.symm⟩) h.1
    · rcases List.mem_cons.mp hs with rfl | hs'
      · exact absurd (List.mem_map.mpr ⟨t, ht', hp⟩) h.1
      · exact ih h.2 t ht' s hs' hp

/-- C8: catalog identity uniqueness is an invariant — if no two durable
records share a path before a reconciliation pass, then after staging the
scan, deduping, reconciling and adding the enriched new entries, still no two
durable records share a path. -/
theorem spec_c8 (durable : List Row) (scan : List ImageBasic)
    (enrich : ImageBasic → Nat) (d1 : List Row) (removed1 : Nat)
    (new1 : List ImageBasic)
    (hnodup : (durable.map (fun r => r.path)).Nodup)
    (h1 : runPass durable scan enrich = some (d1, removed1, new1)) :
    (d1.map (fun r => r.path)).Nodup := by
  obtain ⟨staged, dups0, rows, hpop, hrows, hd1, -, -⟩ :=
    runPass_inv durable scan enrich d1 removed1 new1 h1
  obtain ⟨-, hstnodup⟩ := populate_staged_props scan staged dups0 hpop
  have hkept : (((update_table_get_new durable staged).2.1).map
      (fun r => r.path)).Nodup := by
    have hsub : ((update_table_get_new durable staged).2.1).Sublist durable :=
      List.filter_sublist _
    exact hnodup.sublist (hsub.map _)
  have hrowpaths : rows.map (fun r => r.path) =
      (update_table_get_new durable staged).2.2.map (fun b => b.path) := by
    rw [rowsOfImages_paths _ rows hrows, List.map_map]
    rfl
  have hnewnodup : ((update_table_get_new durable staged).2.2.map
      (fun b => b.path)).Nodup :=
    hstnodup.sublist (update_new_paths durable staged)
  have hdisj : List.Disjoint (((update_table_get_new durable staged).2.1).map
      (fun r => r.path)) (rows.map (fun r => r.path)) := by
    intro p hpk hpr
    rw [hrowpaths] at hpr
    obtain ⟨r, hr, hrp⟩ := List.mem_map.mp hpk
    obtain ⟨b, hb, hbp⟩ := List.mem_map.mp hpr
    obtain ⟨s, hs, hsp, hss, hnone⟩ := (mem_update_new_iff durable staged b).mp hb
    have hmatch := (List.mem_filter.mp hr).2
    obtain ⟨t, ht, htm⟩ := List.any_eq_true.mp hmatch
    have htm' : t.path = r.path ∧ t.size = r.size := by
      simpa [stagedMatchesRow] using htm
    have hts : t = s := eq_of_nodup_path_map staged hstnodup t ht s hs
      (htm'.1.trans (hrp.trans (hsp.trans hbp).symm))
    refine hnone ⟨r, hr, ?_, ?_⟩
    · exact hrp.trans hbp.symm
    · have h2 : t.size = b.size := by
        rw [hts]
        exact hss
      exact htm'.2.symm.trans h2
  rw [← hd1, List.map_append, List.nodup_append]
  refine ⟨hkept, ?_, hdisj⟩
  rw [hrowpaths]
  exact hnewnodup

theorem spec_c8_witness :
    (([Row.mk "a.jpg" "a.jpg" 3 7 false]).map (fun r => r.path)).Nodup :=
  spec_c8 [] [ImageBasic.mk "a.jpg" 3] (fun _ => 7)
    [Row.mk "a.jpg" "a.jpg" 3 7 false] 0 [ImageBasic.mk "a.jpg" 3]
    (by simp) (by rfl)
